import Mathlib

/-!
# Verification of the streaming preference controller (`src/update_pref.py`)

This file is a shallow embedding of `update_pref.py`, a controller that
subscribes to new block headers over a websocket, computes per-block reward
estimates, smooths the effective Qi→Quai exchange rate with an EMA, applies a
dead-band, and publishes a miner preference through an RPC call.

Modelling conventions:

* Python's arbitrary-precision integers are `ℕ`/`ℤ`; Python's `//` (floor
  division) on the non-negative integer quantities of the source is
  `Int.fdiv`.
* Python `float`s are IEEE-754 binary64 values.  Where a claim depends on the
  rounding itself (the fixed-point claim about `qi_wei`, source line 51), the
  rounding is modelled exactly: `roundDouble` below maps an exact rational to
  the rational value of the nearest binary64 double (round-to-nearest,
  ties-to-even); exponent-range overflow/underflow is not modelled, as every
  quantity of the program stays far inside the binary64 range.
* The remaining float arithmetic of the source (the EMA recurrence, the
  dead-band bounds, the final preference ratio and the `1e-4` publish
  threshold) is modelled as exact rational arithmetic.  Every claim settled
  over this idealisation is insensitive to it: those claims are about control
  flow and order relations with slack far exceeding one unit in the last
  place.
* `asyncio`/network effects are modelled as a transition system: the
  environment supplies events (connection failure, acknowledgement timeout,
  received message, ...) and `step` is the controller's reaction, returning
  the successor state together with its observable effects (the sleep that
  `asyncio.sleep` would perform and whether the preference-update RPC call
  was issued).
-/

set_option maxRecDepth 40000

namespace UpdatePref

/-! ## Exact model of IEEE-754 binary64 rounding over `ℚ` -/

/-- Fuel-driven floor of the base-2 logarithm: `nlog2F fuel n` halves `n`
until it drops below `2`, counting the steps.  Structural recursion on the
fuel keeps the definition kernel-reducible on literals. -/
def nlog2F : ℕ → ℕ → ℕ
  | 0, _ => 0
  | fuel + 1, n => if n < 2 then 0 else nlog2F fuel (n / 2) + 1

/-- `⌊log₂ n⌋` for `1 ≤ n` (and `0` at `0`): `n` itself is enough fuel. -/
def nlog2 (n : ℕ) : ℕ := nlog2F n n

/-- `⌊log₂ q⌋` for a positive rational `q`, computed from the bit lengths of
numerator and denominator with a one-step correction. -/
def qexp (q : ℚ) : ℤ :=
  let a : ℤ := nlog2 q.num.natAbs
  let b : ℤ := nlog2 q.den
  if (2 : ℚ) ^ (a - b) ≤ q then a - b else a - b - 1

/-- Round a rational to the nearest integer, ties to even. -/
def rne (x : ℚ) : ℤ :=
  let f := ⌊x⌋
  let r := x - f
  if r < 1 / 2 then f
  else if 1 / 2 < r then f + 1
  else if f % 2 = 0 then f else f + 1

/-- The value of the IEEE-754 binary64 double nearest to the exact rational
`q` (round-to-nearest, ties-to-even), as a rational: the significand is
scaled into `[2^52, 2^53)` and rounded to an integer.  Exponent-range
saturation (overflow to infinity, subnormal underflow) is not modelled. -/
def roundDouble (q : ℚ) : ℚ :=
  if q = 0 then 0
  else if 0 < q then
    (rne (q * (2 : ℚ) ^ ((52 : ℤ) - qexp q)) : ℚ) * (2 : ℚ) ^ (qexp q - 52)
  else
    -((rne (-q * (2 : ℚ) ^ ((52 : ℤ) - qexp (-q))) : ℚ) * (2 : ℚ) ^ (qexp (-q) - 52))

/-- The unit roundoff of binary64: `2⁻⁵³`. -/
def uRound : ℚ := 1 / 2 ^ 53

/-! ## Configuration constants (source lines 14–18) -/

/-- `BASE_K_QI = 1 / (8 * 10**9)`: Python true division of ints yields a
float, so the constant is the binary64 value nearest `1/(8·10⁹)`. -/
def BASE_K_QI : ℚ := roundDouble (1 / (8 * 10 ^ 9))

/-- `ALPHA_RATE_EMA = 0.001`, the fixed EMA step (float literal, idealised
as the exact rational per the conventions above). -/
def ALPHA_RATE_EMA : ℚ := 1 / 1000

/-- `DELTA = 0.01`, the ±1 % dead-band fraction. -/
def DELTA : ℚ := 1 / 100

/-- `INITIAL_BACKOFF = 1` second. -/
def INITIAL_BACKOFF : ℕ := 1

/-- `MAX_BACKOFF = 60` seconds. -/
def MAX_BACKOFF : ℕ := 60

/-- The publish-threshold literal `1e-4` at source line 110. -/
def PREF_THRESHOLD : ℚ := 1 / 10000

/-! ## Data model -/

/-- The fields `process_block` reads from a recognised header:
`hdr["woHeader"]["number"]` and `hdr["woBody"]["header"]["minerDifficulty"]`,
already hex-decoded to naturals.  `none` models a missing key or an
unparsable hex string — either raises (`KeyError`/`ValueError`) in Python. -/
structure Hdr where
  number : Option ℕ
  minerDifficulty : Option ℕ
deriving DecidableEq

/-- The zone-block header returned by `quai_getBlockByNumber`: absent fields
default to `"0x0"` via `zhdr.get(..., "0x0")` (source lines 62–63). -/
structure Zone where
  exchangeRate : Option ℕ
  kQuaiDiscount : Option ℕ
deriving DecidableEq

/-- One websocket message as the streaming loop (lines 143–148) classifies
it: `malformed` (handling raises before the header guard — unparsable JSON,
or a non-dict `params`/`result`), `noHeader` (parses fine but the guard
`"woBody" in hdr and "woHeader" in hdr` is false, silently ignored), or a
recognised `header`. -/
inductive WireMsg where
  | malformed
  | noHeader
  | header (h : Hdr)
deriving DecidableEq

/-- The process-lifetime mutable `state` dict (line 120):
`{"rate_ema": None, "last_pref": 0.5}`. -/
structure PState where
  rate_ema : Option ℚ
  last_pref : ℚ
deriving DecidableEq

/-! ## Reward model and per-block processing (`process_block`, lines 42–116) -/

/-- Python `float(n)` for a non-negative integer. -/
def pyFloat (n : ℕ) : ℚ := roundDouble n

/-- Python `int()` applied to a float: truncation toward zero. -/
def pyInt (q : ℚ) : ℤ := if 0 ≤ q then ⌊q⌋ else -⌊-q⌋

/-- Line 51: `qi_wei = int(BASE_K_QI * diff * 10**18)` — two left-associated
float multiplications (the int operands are converted to floats first),
then truncation to int. -/
def qi_wei (diff : ℕ) : ℤ :=
  pyInt (roundDouble (roundDouble (BASE_K_QI * pyFloat diff) * pyFloat (10 ^ 18)))

/-- Line 62: `int(zhdr.get("exchangeRate", "0x0"), 16)`. -/
def exchangeRateOf (z : Zone) : ℕ := z.exchangeRate.getD 0

/-- Line 63: `int(zhdr.get("kQuaiDiscount", "0x0"), 16)`. -/
def kQuaiDiscountOf (z : Zone) : ℕ := z.kQuaiDiscount.getD 0

/-- Line 68: `effective_rate_wei = base_rate_wei + discount_wei` (exact
integer addition). -/
def effective_rate_wei (z : Zone) : ℕ := exchangeRateOf z + kQuaiDiscountOf z

/-- Line 88: `direct_quai_wei = qi_wei * base_rate_wei // 10**18` — integer
arithmetic; `//` is floor division. -/
def direct_quai_wei (diff base : ℕ) : ℤ := Int.fdiv (qi_wei diff * base) (10 ^ 18)

/-- Line 89: `qi_to_quai_wei = qi_wei * effective_rate_wei // 10**18`. -/
def qi_to_quai_wei (diff eff : ℕ) : ℤ := Int.fdiv (qi_wei diff * eff) (10 ^ 18)

/-- Lines 72–79: the EMA of the effective rate.  The first sample initialises
the average to the sample itself; later samples move it by
`ALPHA_RATE_EMA * (sample − ema)`. -/
def emaNext (prev : Option ℚ) (eff : ℕ) : ℚ :=
  match prev with
  | none => (eff : ℚ)
  | some m => m + ALPHA_RATE_EMA * ((eff : ℚ) - m)

/-- Lines 93–107: the candidate preference of one cycle.  Outside the
dead-band around the updated EMA the ratio `direct/(direct+converted)` is
taken when the total is positive; in every other case the previous
`last_pref` is kept. -/
def prefCand (st : PState) (diff base disc : ℕ) : ℚ :=
  let eff := base + disc
  let ema := emaNext st.rate_ema eff
  if (eff : ℚ) < ema * (1 - DELTA) ∨ ema * (1 + DELTA) < (eff : ℚ) then
    if 0 < direct_quai_wei diff base + qi_to_quai_wei diff eff then
      (direct_quai_wei diff base : ℚ) /
        ((direct_quai_wei diff base : ℚ) + (qi_to_quai_wei diff eff : ℚ))
    else st.last_pref
  else st.last_pref

/-- Exceptions escaping `process_block` (missing keys / unparsable hex). -/
inductive PErr where
  | fieldError
deriving DecidableEq

/-- Lines 42–116.  `zone` is the result of the `quai_getBlockByNumber` call
(`none` = falsy/failed, line 58: skip the block, state untouched).  `rpcOk`
is whether the `miner_setMinerPreference` call would succeed — the source
*ignores* the call's outcome: after issuing it, `state["last_pref"] = pref`
unconditionally (line 114).  The returned `Bool` records whether that update
call was issued. -/
def process_block (hdr : Hdr) (zone : Option Zone) (rpcOk : Bool) (st : PState) :
    Except PErr (PState × Bool) :=
  match hdr.number with
  | none => .error .fieldError
  | some _ =>
    match hdr.minerDifficulty with
    | none => .error .fieldError
    | some diff =>
      match zone with
      | none => .ok (st, false)
      | some z =>
        let ema := emaNext st.rate_ema (effective_rate_wei z)
        let pref := prefCand st diff (exchangeRateOf z) (kQuaiDiscountOf z)
        if PREF_THRESHOLD < |pref - st.last_pref| then
          .ok ({ rate_ema := some ema, last_pref := pref }, true)
        else
          .ok ({ rate_ema := some ema, last_pref := st.last_pref }, false)

/-! ## Complete cycles and traces -/

/-- One fully-formed header-processing cycle: a recognised header whose
fields all parse, a successful zone lookup, and the environment's verdict on
the preference-update RPC call. -/
structure Cycle where
  number : ℕ
  minerDifficulty : ℕ
  exchangeRate : ℕ
  kQuaiDiscount : ℕ
  rpcOk : Bool
deriving DecidableEq

def Cycle.hdr (c : Cycle) : Hdr := ⟨some c.number, some c.minerDifficulty⟩

def Cycle.zone (c : Cycle) : Zone := ⟨some c.exchangeRate, some c.kQuaiDiscount⟩

/-- The effective rate of a complete cycle. -/
def Cycle.eff (c : Cycle) : ℕ := c.exchangeRate + c.kQuaiDiscount

/-- Processing a complete cycle never raises; `stepCycle` is the total
restriction of `process_block` to complete cycles. -/
def stepCycle (st : PState) (c : Cycle) : PState × Bool :=
  match process_block c.hdr (some c.zone) c.rpcOk st with
  | .ok r => r
  | .error _ => (st, false)

/-- Fold `process_block` over a list of complete cycles, collecting the
final state and the per-cycle publish flags. -/
def processTrace (st : PState) : List Cycle → PState × List Bool
  | [] => (st, [])
  | c :: cs =>
    let r := stepCycle st c
    let rest := processTrace r.1 cs
    (rest.1, r.2 :: rest.2)

/-- The raw effective rate of cycle `c` lies inside the dead-band computed
from this cycle's updated EMA: the negation of the recompute condition at
line 95. -/
def inBand (st : PState) (c : Cycle) : Bool :=
  let ema := emaNext st.rate_ema c.eff
  !(decide ((c.eff : ℚ) < ema * (1 - DELTA)) || decide (ema * (1 + DELTA) < (c.eff : ℚ)))

/-- Every cycle of the run stays inside the dead-band of its own cycle. -/
def bandRun (st : PState) : List Cycle → Bool
  | [] => true
  | c :: cs => inBand st c && bandRun (stepCycle st c).1 cs

/-! ## Controller loop (`run_controller`, lines 118–153) -/

/-- Control position of the loop.  `connecting` covers connect + subscribe +
ack wait (one `try` body up to line 141); `streaming` is the `async for`;
`stopped` is the `return` at line 140. -/
inductive Phase where
  | connecting
  | streaming
  | stopped
deriving DecidableEq

/-- Loop state: phase, current reconnect-backoff delay, and the shared
processing state (which survives reconnections). -/
structure CState where
  phase : Phase
  backoff : ℕ
  state : PState
deriving DecidableEq

/-- Environment events driving one reaction of the loop. -/
inductive Ev where
  /-- An exception while connecting, subscribing, or awaiting the ack. -/
  | connectFail
  /-- `asyncio.TimeoutError` from the bounded ack wait (line 138). -/
  | ackTimeout
  /-- Some message arrived within the 5 s ack bound (line 136). -/
  | ackOk
  /-- One streamed message, with the zone lookup's result and the
  preference-call verdict the environment would supply while it is
  processed. -/
  | msg (m : WireMsg) (zone : Option Zone) (rpcOk : Bool)
  /-- The websocket iterator ends gracefully: the `async for` exits without
  raising and the `while True` reconnects without sleeping. -/
  | streamEnd
  /-- The websocket iterator raises (abnormal close). -/
  | streamErr

/-- Observable effects of one reaction: the `asyncio.sleep` performed by the
`except` handler (with its duration) and whether a preference-update RPC
call was issued. -/
structure Eff where
  slept : Option ℕ
  called : Bool
deriving DecidableEq

/-- Lines 150–153: sleep the current backoff, then double it up to
`MAX_BACKOFF`, then loop back to connecting. -/
def backoffStep (c : CState) : CState × Eff :=
  ({ c with phase := .connecting, backoff := min (c.backoff * 2) MAX_BACKOFF },
   ⟨some c.backoff, false⟩)

/-- One reaction of `run_controller` to an environment event. -/
def step (c : CState) (e : Ev) : CState × Eff :=
  match c.phase, e with
  | .connecting, .connectFail => backoffStep c
  | .connecting, .ackTimeout => ({ c with phase := .stopped }, ⟨none, false⟩)
  | .connecting, .ackOk =>
      ({ c with phase := .streaming, backoff := INITIAL_BACKOFF }, ⟨none, false⟩)
  | .streaming, .msg m zone rpcOk =>
      match m with
      | .malformed => backoffStep c
      | .noHeader => (c, ⟨none, false⟩)
      | .header h =>
          match process_block h zone rpcOk c.state with
          | .ok (st, called) => ({ c with state := st }, ⟨none, called⟩)
          | .error _ => backoffStep c
  | .streaming, .streamEnd => ({ c with phase := .connecting }, ⟨none, false⟩)
  | .streaming, .streamErr => backoffStep c
  | _, _ => (c, ⟨none, false⟩)

/-- Line 120: the initial processing state. -/
def initPState : PState := ⟨none, 1 / 2⟩

/-- Lines 119–121: the loop starts connecting with backoff
`INITIAL_BACKOFF` and a fresh processing state. -/
def initState : CState := ⟨.connecting, INITIAL_BACKOFF, initPState⟩

/-- The controller state after reacting to a list of events. -/
def run (evs : List Ev) : CState := evs.foldl (fun c e => (step c e).1) initState

/-- The controller state after `n` consecutive connection failures from
start-up. -/
def consecFail : ℕ → CState
  | 0 => initState
  | n + 1 => (step (consecFail n) .connectFail).1

section FloatEval

/- The kernel can evaluate the rational arithmetic below, but the elaborator
respects the `@[irreducible]` markers Batteries puts on the `Rat` operations;
restore default reducibility for them locally so `decide` can run.  The
attribute is confined to sections of concrete evaluations: on symbolic terms
it would make definitional unfolding explode. -/
attribute [local semireducible] Rat.mul Rat.inv Rat.add Rat.sub

example : nlog2 1 = 0 := by decide
example : nlog2 8000000000 = 32 := by decide
example : roundDouble (1 / 3 : ℚ) = 6004799503160661 / 18014398509481984 := by decide
example : roundDouble ((10 : ℚ) ^ 18) = 10 ^ 18 := by decide
example : qi_wei 36028802 = 4503600250000001 := by decide
example : qi_wei 1 = 125000000 := by decide
example : qi_wei 18719 = 2339875000000 := by decide
example : stepCycle ⟨some 1, 1 / 2⟩ ⟨0, 1, 10 ^ 18, 10 ^ 18, false⟩ =
    (⟨some (1 + (1 / 1000) * (2 * 10 ^ 18 - 1)), 1 / 3⟩, true) := by decide

/-- `float(10**18)` is exact: `10¹⁸` is a 60-bit integer whose significand
fits in 53 bits. -/
theorem pyFloat_pow18 : pyFloat (10 ^ 18) = 10 ^ 18 := by decide

end FloatEval

/-! ## Properties of the binary64 rounding model -/

theorem nlog2F_spec : ∀ f n : ℕ, 1 ≤ n → n ≤ f →
    2 ^ nlog2F f n ≤ n ∧ n < 2 ^ (nlog2F f n + 1) := by
  intro f
  induction f with
  | zero => intro n h1 h2; omega
  | succ f ih =>
    intro n h1 h2
    by_cases h : n < 2
    · simp only [nlog2F, if_pos h, pow_zero, zero_add, pow_one]
      omega
    · have hrec := ih (n / 2) (by omega) (by omega)
      simp only [nlog2F, if_neg h]
      have hp : 2 ^ (nlog2F f (n / 2) + 1) = 2 * 2 ^ nlog2F f (n / 2) := by
        rw [pow_succ]; ring
      have hp2 : 2 ^ (nlog2F f (n / 2) + 1 + 1) = 2 * 2 ^ (nlog2F f (n / 2) + 1) := by
        rw [pow_succ 2 (nlog2F f (n / 2) + 1)]; ring
      omega

theorem nlog2_spec (n : ℕ) (h : 1 ≤ n) :
    2 ^ nlog2 n ≤ n ∧ n < 2 ^ (nlog2 n + 1) :=
  nlog2F_spec n n h le_rfl

theorem qexp_spec (q : ℚ) (hq : 0 < q) :
    (2 : ℚ) ^ qexp q ≤ q ∧ q < (2 : ℚ) ^ (qexp q + 1) := by
  have hnum : 0 < q.num := Rat.num_pos.mpr hq
  have hden : 0 < q.den := q.den_pos
  obtain ⟨ha1, ha2⟩ := nlog2_spec q.num.natAbs (by omega)
  obtain ⟨hb1, hb2⟩ := nlog2_spec q.den hden
  set a := nlog2 q.num.natAbs with hadef
  set b := nlog2 q.den with hbdef
  have hnq : ((q.num.natAbs : ℚ)) = (q.num : ℚ) := by
    rw [← Int.cast_natCast, Int.natAbs_of_nonneg hnum.le]
  have hqd : q = (q.num : ℚ) / (q.den : ℚ) := (Rat.num_div_den q).symm
  have hdenQ : (0 : ℚ) < (q.den : ℚ) := by exact_mod_cast hden
  -- cast the natural-number bounds into `ℚ`
  have ha1' : (2 : ℚ) ^ a ≤ (q.num : ℚ) := by
    rw [← hnq]; exact_mod_cast ha1
  have ha2' : (q.num : ℚ) < (2 : ℚ) ^ (a + 1) := by
    rw [← hnq]; exact_mod_cast ha2
  have hb1' : (2 : ℚ) ^ b ≤ (q.den : ℚ) := by exact_mod_cast hb1
  have hb2' : (q.den : ℚ) < (2 : ℚ) ^ (b + 1) := by exact_mod_cast hb2
  have hnumQ : (0 : ℚ) < (q.num : ℚ) := by exact_mod_cast hnum
  -- `q` is caught between 2^(a-b-1) and 2^(a-b+1)
  have hlow : (2 : ℚ) ^ ((a : ℤ) - (b : ℤ) - 1) < q := by
    have h1 : (2 : ℚ) ^ a * (q.den : ℚ) < (q.num : ℚ) * (2 : ℚ) ^ (b + 1) := by
      calc (2 : ℚ) ^ a * (q.den : ℚ) ≤ (q.num : ℚ) * (q.den : ℚ) := by
            exact mul_le_mul_of_nonneg_right ha1' hdenQ.le
        _ < (q.num : ℚ) * (2 : ℚ) ^ (b + 1) := by
            exact mul_lt_mul_of_pos_left hb2' hnumQ
    have h2 : ((2 : ℚ) ^ a) / ((2 : ℚ) ^ (b + 1)) < (q.num : ℚ) / (q.den : ℚ) :=
      (div_lt_div_iff₀ (by positivity) hdenQ).mpr h1
    calc (2 : ℚ) ^ ((a : ℤ) - (b : ℤ) - 1) = (2 : ℚ) ^ ((a : ℤ) - ((b : ℤ) + 1)) := by
          ring_nf
      _ = (2 : ℚ) ^ (a : ℤ) / (2 : ℚ) ^ ((b : ℤ) + 1) := zpow_sub₀ two_ne_zero _ _
      _ = (2 : ℚ) ^ a / (2 : ℚ) ^ (b + 1) := by
          rw [zpow_natCast]
          norm_cast
      _ < (q.num : ℚ) / (q.den : ℚ) := h2
      _ = q := Rat.num_div_den q
  have hhigh : q < (2 : ℚ) ^ ((a : ℤ) - (b : ℤ) + 1) := by
    have h1 : (q.num : ℚ) * (2 : ℚ) ^ b < (2 : ℚ) ^ (a + 1) * (q.den : ℚ) := by
      calc (q.num : ℚ) * (2 : ℚ) ^ b < (2 : ℚ) ^ (a + 1) * (2 : ℚ) ^ b := by
            exact mul_lt_mul_of_pos_right ha2' (by positivity)
        _ ≤ (2 : ℚ) ^ (a + 1) * (q.den : ℚ) := by
            exact mul_le_mul_of_nonneg_left hb1' (by positivity)
    have h2 : (q.num : ℚ) / (q.den : ℚ) < ((2 : ℚ) ^ (a + 1)) / ((2 : ℚ) ^ b) :=
      (div_lt_div_iff₀ hdenQ (by positivity)).mpr h1
    calc q = (q.num : ℚ) / (q.den : ℚ) := hqd
      _ < (2 : ℚ) ^ (a + 1) / (2 : ℚ) ^ b := h2
      _ = (2 : ℚ) ^ (((a : ℤ) + 1)) / (2 : ℚ) ^ (b : ℤ) := by
          rw [zpow_natCast]
          norm_cast
      _ = (2 : ℚ) ^ ((a : ℤ) + 1 - (b : ℤ)) := (zpow_sub₀ two_ne_zero _ _).symm
      _ = (2 : ℚ) ^ ((a : ℤ) - (b : ℤ) + 1) := by ring_nf
  rw [qexp]
  simp only [← hadef, ← hbdef]
  split_ifs with h
  · exact ⟨h, by simpa using hhigh⟩
  · constructor
    · exact hlow.le
    · have : (a : ℤ) - (b : ℤ) - 1 + 1 = (a : ℤ) - (b : ℤ) := by ring
      rw [this]
      exact lt_of_not_le h

theorem rne_abs_sub_le (x : ℚ) : |(rne x : ℚ) - x| ≤ 1 / 2 := by
  have hfl : ((⌊x⌋ : ℚ)) ≤ x := Int.floor_le x
  have hfu : x < (⌊x⌋ : ℚ) + 1 := Int.lt_floor_add_one x
  rw [rne]
  split_ifs with h1 h2 h3 <;>
    · rw [abs_le]
      push_cast
      constructor <;> linarith

theorem floor_le_rne (x : ℚ) : ⌊x⌋ ≤ rne x := by
  rw [rne]
  split_ifs <;> omega

theorem roundDouble_zero : roundDouble 0 = 0 := by
  rw [roundDouble]
  simp

theorem roundDouble_nonneg (q : ℚ) (h : 0 ≤ q) : 0 ≤ roundDouble q := by
  rw [roundDouble]
  rcases eq_or_lt_of_le h with h0 | h0
  · simp [← h0]
  · rw [if_neg (by linarith), if_pos h0]
    have hx : (0 : ℚ) ≤ q * (2 : ℚ) ^ ((52 : ℤ) - qexp q) := by positivity
    have hfl : (0 : ℤ) ≤ ⌊q * (2 : ℚ) ^ ((52 : ℤ) - qexp q)⌋ := Int.floor_nonneg.mpr hx
    have hrne : (0 : ℤ) ≤ rne (q * (2 : ℚ) ^ ((52 : ℤ) - qexp q)) :=
      le_trans hfl (floor_le_rne _)
    have : (0 : ℚ) ≤ (rne (q * (2 : ℚ) ^ ((52 : ℤ) - qexp q)) : ℚ) := by exact_mod_cast hrne
    positivity

theorem roundDouble_err (q : ℚ) (h : 0 ≤ q) :
    |roundDouble q - q| ≤ q * uRound := by
  rcases eq_or_lt_of_le h with h0 | h0
  · rw [← h0, roundDouble_zero]
    simp
  · rw [roundDouble, if_neg (by linarith), if_pos h0]
    set e := qexp q with hedef
    set x := q * (2 : ℚ) ^ ((52 : ℤ) - e) with hxdef
    have hx : x * (2 : ℚ) ^ (e - 52) = q := by
      rw [hxdef, mul_assoc, ← zpow_add₀ (two_ne_zero : (2 : ℚ) ≠ 0)]
      norm_num
    have hsplit : (rne x : ℚ) * (2 : ℚ) ^ (e - 52) - q
        = ((rne x : ℚ) - x) * (2 : ℚ) ^ (e - 52) := by
      rw [sub_mul, hx]
    rw [hsplit, abs_mul, abs_of_pos (zpow_pos (by norm_num : (0 : ℚ) < 2) _)]
    have h1 : |(rne x : ℚ) - x| * (2 : ℚ) ^ (e - 52)
        ≤ (1 / 2) * (2 : ℚ) ^ (e - 52) := by
      exact mul_le_mul_of_nonneg_right (rne_abs_sub_le x)
        (le_of_lt (zpow_pos (by norm_num) _))
    have h2 : (1 / 2 : ℚ) * (2 : ℚ) ^ (e - 52) = (2 : ℚ) ^ (e - 53) := by
      have : (1 / 2 : ℚ) = (2 : ℚ) ^ (-1 : ℤ) := by norm_num
      rw [this, ← zpow_add₀ (two_ne_zero : (2 : ℚ) ≠ 0)]
      ring_nf
    have h3 : (2 : ℚ) ^ (e - 53) ≤ q * uRound := by
      have he : (2 : ℚ) ^ (e : ℤ) ≤ q := (qexp_spec q h0).1
      have hcalc : (2 : ℚ) ^ (e - 53) = (2 : ℚ) ^ (e : ℤ) * (2 : ℚ) ^ (-53 : ℤ) := by
        rw [← zpow_add₀ (two_ne_zero : (2 : ℚ) ≠ 0)]
        ring_nf
      rw [hcalc]
      have hu : (2 : ℚ) ^ (-53 : ℤ) = uRound := by
        rw [uRound]
        norm_num
      rw [hu]
      exact mul_le_mul_of_nonneg_right he (by rw [uRound]; positivity)
    calc |(rne x : ℚ) - x| * (2 : ℚ) ^ (e - 52)
        ≤ (1 / 2) * (2 : ℚ) ^ (e - 52) := h1
      _ = (2 : ℚ) ^ (e - 53) := h2
      _ ≤ q * uRound := h3

theorem roundDouble_le (q : ℚ) (h : 0 ≤ q) : roundDouble q ≤ q * (1 + uRound) := by
  have := roundDouble_err q h
  rw [abs_le] at this
  linarith [this.2]

theorem roundDouble_ge (q : ℚ) (h : 0 ≤ q) : q * (1 - uRound) ≤ roundDouble q := by
  have := roundDouble_err q h
  rw [abs_le] at this
  linarith [this.1]

/-! ## Properties of `qi_wei` -/

theorem pyFloat_nonneg (n : ℕ) : 0 ≤ pyFloat n :=
  roundDouble_nonneg _ (Nat.cast_nonneg n)

theorem BASE_K_QI_nonneg : 0 ≤ BASE_K_QI :=
  roundDouble_nonneg _ (by norm_num)

theorem qi_wei_nonneg (d : ℕ) : 0 ≤ qi_wei d := by
  rw [qi_wei]
  have h2 : (0 : ℚ) ≤ roundDouble (roundDouble (BASE_K_QI * pyFloat d) * pyFloat (10 ^ 18)) := by
    refine roundDouble_nonneg _ (mul_nonneg (roundDouble_nonneg _ ?_) (pyFloat_nonneg _))
    exact mul_nonneg BASE_K_QI_nonneg (pyFloat_nonneg d)
  rw [pyInt, if_pos h2]
  exact Int.floor_nonneg.mpr h2

theorem direct_quai_wei_nonneg (d b : ℕ) : 0 ≤ direct_quai_wei d b :=
  Int.fdiv_nonneg (mul_nonneg (qi_wei_nonneg d) (Int.natCast_nonneg b)) (by norm_num)

theorem qi_to_quai_wei_nonneg (d e : ℕ) : 0 ≤ qi_to_quai_wei d e :=
  Int.fdiv_nonneg (mul_nonneg (qi_wei_nonneg d) (Int.natCast_nonneg e)) (by norm_num)

/-- The float-computed `qi_wei` stays within relative error `5·2⁻⁵³` (plus
the unit lost to truncation) of the exact fixed-point value
`d·10¹⁸/(8·10⁹) = 125000000·d`. -/
theorem qi_wei_err (d : ℕ) :
    |(qi_wei d : ℚ) - 125000000 * d| ≤ 125000000 * d * (5 * uRound) + 1 := by
  set B : ℚ := 1 / (8 * 10 ^ 9) with hBdef
  have hu0 : (0 : ℚ) < uRound := by rw [uRound]; norm_num
  have h1u : (0 : ℚ) ≤ 1 + uRound := by positivity
  have h1u' : (0 : ℚ) ≤ 1 - uRound := by rw [uRound]; norm_num
  have hd0 : (0 : ℚ) ≤ (d : ℚ) := Nat.cast_nonneg d
  have hB0 : (0 : ℚ) ≤ B := by rw [hBdef]; norm_num
  -- the two rounded factors
  have hx1u : pyFloat d ≤ (d : ℚ) * (1 + uRound) := roundDouble_le _ hd0
  have hx1l : (d : ℚ) * (1 - uRound) ≤ pyFloat d := roundDouble_ge _ hd0
  have hx1n : 0 ≤ pyFloat d := pyFloat_nonneg d
  have hBu : BASE_K_QI ≤ B * (1 + uRound) := roundDouble_le _ hB0
  have hBl : B * (1 - uRound) ≤ BASE_K_QI := roundDouble_ge _ hB0
  have hBn : 0 ≤ BASE_K_QI := BASE_K_QI_nonneg
  -- the first product and its rounding
  have hm1u : BASE_K_QI * pyFloat d ≤ (B * (1 + uRound)) * ((d : ℚ) * (1 + uRound)) :=
    mul_le_mul hBu hx1u hx1n (by positivity)
  have hm1l : (B * (1 - uRound)) * ((d : ℚ) * (1 - uRound)) ≤ BASE_K_QI * pyFloat d :=
    mul_le_mul hBl hx1l (mul_nonneg hd0 h1u') hBn
  have hm1n : 0 ≤ BASE_K_QI * pyFloat d := mul_nonneg hBn hx1n
  set t1 : ℚ := roundDouble (BASE_K_QI * pyFloat d) with ht1def
  have ht1n : 0 ≤ t1 := roundDouble_nonneg _ hm1n
  have ht1u : t1 ≤ (B * (1 + uRound)) * ((d : ℚ) * (1 + uRound)) * (1 + uRound) := by
    calc t1 ≤ (BASE_K_QI * pyFloat d) * (1 + uRound) := roundDouble_le _ hm1n
      _ ≤ (B * (1 + uRound)) * ((d : ℚ) * (1 + uRound)) * (1 + uRound) :=
          mul_le_mul_of_nonneg_right hm1u h1u
  have ht1l : (B * (1 - uRound)) * ((d : ℚ) * (1 - uRound)) * (1 - uRound) ≤ t1 := by
    calc (B * (1 - uRound)) * ((d : ℚ) * (1 - uRound)) * (1 - uRound)
        ≤ (BASE_K_QI * pyFloat d) * (1 - uRound) := mul_le_mul_of_nonneg_right hm1l h1u'
      _ ≤ t1 := roundDouble_ge _ hm1n
  -- the second product and its rounding
  set t2 : ℚ := roundDouble (t1 * pyFloat (10 ^ 18)) with ht2def
  have h18 : pyFloat (10 ^ 18) = (10 : ℚ) ^ 18 := pyFloat_pow18
  have ht2n : 0 ≤ t2 := roundDouble_nonneg _ (mul_nonneg ht1n (pyFloat_nonneg _))
  have hkey : B * 10 ^ 18 = 125000000 := by rw [hBdef]; norm_num
  have ht2u : t2 ≤ 125000000 * (d : ℚ) * (1 + uRound) ^ 4 := by
    have step1 : t2 ≤ (t1 * (10 : ℚ) ^ 18) * (1 + uRound) := by
      rw [ht2def, h18]
      exact roundDouble_le _ (by positivity)
    have step2 : (t1 * (10 : ℚ) ^ 18) * (1 + uRound)
        ≤ ((B * (1 + uRound)) * ((d : ℚ) * (1 + uRound)) * (1 + uRound) * 10 ^ 18) * (1 + uRound) := by
      refine mul_le_mul_of_nonneg_right ?_ h1u
      exact mul_le_mul_of_nonneg_right ht1u (by positivity)
    have step3 : ((B * (1 + uRound)) * ((d : ℚ) * (1 + uRound)) * (1 + uRound) * 10 ^ 18) * (1 + uRound)
        = (B * 10 ^ 18) * (d : ℚ) * (1 + uRound) ^ 4 := by ring
    rw [step3, hkey] at step2
    exact le_trans step1 step2
  have ht2l : 125000000 * (d : ℚ) * (1 - uRound) ^ 4 ≤ t2 := by
    have step1 : (t1 * (10 : ℚ) ^ 18) * (1 - uRound) ≤ t2 := by
      rw [ht2def, h18]
      exact roundDouble_ge _ (by positivity)
    have step2 : ((B * (1 - uRound)) * ((d : ℚ) * (1 - uRound)) * (1 - uRound) * 10 ^ 18) * (1 - uRound)
        ≤ (t1 * (10 : ℚ) ^ 18) * (1 - uRound) := by
      refine mul_le_mul_of_nonneg_right ?_ h1u'
      exact mul_le_mul_of_nonneg_right ht1l (by positivity)
    have step3 : ((B * (1 - uRound)) * ((d : ℚ) * (1 - uRound)) * (1 - uRound) * 10 ^ 18) * (1 - uRound)
        = (B * 10 ^ 18) * (d : ℚ) * (1 - uRound) ^ 4 := by ring
    rw [step3, hkey] at step2
    exact le_trans step2 step1
  -- the two quartic factors against `1 ± 5u`
  have hq4u : (1 + uRound) ^ 4 ≤ 1 + 5 * uRound := by rw [uRound]; norm_num
  have hq4l : 1 - 5 * uRound ≤ (1 - uRound) ^ 4 := by rw [uRound]; norm_num
  have hEn : (0 : ℚ) ≤ 125000000 * (d : ℚ) := by positivity
  have ht2u' : t2 ≤ 125000000 * (d : ℚ) * (1 + 5 * uRound) :=
    le_trans ht2u (mul_le_mul_of_nonneg_left hq4u hEn)
  have ht2l' : 125000000 * (d : ℚ) * (1 - 5 * uRound) ≤ t2 :=
    le_trans (mul_le_mul_of_nonneg_left hq4l hEn) ht2l
  -- truncation to int
  have hqw : qi_wei d = ⌊t2⌋ := by
    rw [qi_wei, pyInt, ht2def, if_pos ht2n]
  have hfl : ((⌊t2⌋ : ℚ)) ≤ t2 := Int.floor_le t2
  have hfg : t2 - 1 < (⌊t2⌋ : ℚ) := Int.sub_one_lt_floor t2
  rw [hqw, abs_le]
  constructor <;> nlinarith [ht2u', ht2l', hfl, hfg, hEn, hu0]

/-! ## Structural properties of one processing cycle -/

theorem prefCand_mem (st : PState) (d b k : ℕ)
    (h0 : 0 ≤ st.last_pref) (h1 : st.last_pref ≤ 1) :
    0 ≤ prefCand st d b k ∧ prefCand st d b k ≤ 1 := by
  simp only [prefCand]
  split_ifs with hband htot
  · have hD : 0 ≤ direct_quai_wei d b := direct_quai_wei_nonneg d b
    have hC : 0 ≤ qi_to_quai_wei d (b + k) := qi_to_quai_wei_nonneg d (b + k)
    have hDQ : (0 : ℚ) ≤ (direct_quai_wei d b : ℚ) := by exact_mod_cast hD
    have hCQ : (0 : ℚ) ≤ (qi_to_quai_wei d (b + k) : ℚ) := by exact_mod_cast hC
    have hTQ : (0 : ℚ) < (direct_quai_wei d b : ℚ) + (qi_to_quai_wei d (b + k) : ℚ) := by
      exact_mod_cast htot
    constructor
    · exact div_nonneg hDQ hTQ.le
    · rw [div_le_one hTQ]
      linarith
  · exact ⟨h0, h1⟩
  · exact ⟨h0, h1⟩

theorem stepCycle_eq (st : PState) (c : Cycle) :
    stepCycle st c =
      if PREF_THRESHOLD <
          |prefCand st c.minerDifficulty c.exchangeRate c.kQuaiDiscount - st.last_pref| then
        (⟨some (emaNext st.rate_ema c.eff),
          prefCand st c.minerDifficulty c.exchangeRate c.kQuaiDiscount⟩, true)
      else
        (⟨some (emaNext st.rate_ema c.eff), st.last_pref⟩, false) := by
  obtain ⟨n, d, b, k, ok⟩ := c
  have key : process_block (⟨some n, some d⟩ : Hdr) (some ⟨some b, some k⟩) ok st =
      (if PREF_THRESHOLD < |prefCand st d b k - st.last_pref| then
        .ok (⟨some (emaNext st.rate_ema (b + k)), prefCand st d b k⟩, true)
      else
        .ok (⟨some (emaNext st.rate_ema (b + k)), st.last_pref⟩, false)) := rfl
  calc stepCycle st ⟨n, d, b, k, ok⟩
      = (match process_block (⟨some n, some d⟩ : Hdr) (some ⟨some b, some k⟩) ok st with
          | .ok r => r
          | .error _ => (st, false)) := rfl
    _ = _ := by rw [key]; split_ifs <;> rfl

theorem stepCycle_rate_ema (st : PState) (c : Cycle) :
    (stepCycle st c).1.rate_ema = some (emaNext st.rate_ema c.eff) := by
  rw [stepCycle_eq]
  split_ifs <;> rfl

theorem prefCand_of_inBand (st : PState) (c : Cycle) (h : inBand st c = true) :
    prefCand st c.minerDifficulty c.exchangeRate c.kQuaiDiscount = st.last_pref := by
  simp only [inBand, Bool.not_eq_true', Bool.or_eq_false_iff,
    decide_eq_false_iff_not, Cycle.eff] at h
  simp only [prefCand]
  rw [if_neg]
  rintro (hlt | hgt)
  · exact h.1 hlt
  · exact h.2 hgt

theorem stepCycle_of_inBand (st : PState) (c : Cycle) (h : inBand st c = true) :
    stepCycle st c = (⟨some (emaNext st.rate_ema c.eff), st.last_pref⟩, false) := by
  rw [stepCycle_eq, prefCand_of_inBand st c h]
  rw [if_neg]
  simp [PREF_THRESHOLD]

theorem processTrace_of_bandRun : ∀ (cs : List Cycle) (st : PState),
    bandRun st cs = true →
    (processTrace st cs).1.last_pref = st.last_pref ∧
      (processTrace st cs).2 = List.replicate cs.length false := by
  intro cs
  induction cs with
  | nil => intro st _; exact ⟨rfl, rfl⟩
  | cons c cs ih =>
    intro st h
    rw [bandRun, Bool.and_eq_true] at h
    obtain ⟨h1, h2⟩ := h
    obtain ⟨ihl, ihr⟩ := ih _ h2
    have hstep := stepCycle_of_inBand st c h1
    constructor
    · calc (processTrace st (c :: cs)).1.last_pref
          = (processTrace (stepCycle st c).1 cs).1.last_pref := rfl
        _ = (stepCycle st c).1.last_pref := ihl
        _ = st.last_pref := by rw [hstep]
    · calc (processTrace st (c :: cs)).2
          = (stepCycle st c).2 :: (processTrace (stepCycle st c).1 cs).2 := rfl
        _ = false :: List.replicate cs.length false := by rw [ihr, hstep]
        _ = List.replicate (c :: cs).length false := by rw [List.length_cons, List.replicate_succ]

/-! ## The `[0,1]` invariant along the controller loop -/

theorem process_block_last_mem (hdr : Hdr) (zone : Option Zone) (ok : Bool)
    (st : PState) (r : PState × Bool)
    (h0 : 0 ≤ st.last_pref) (h1 : st.last_pref ≤ 1)
    (hok : process_block hdr zone ok st = .ok r) :
    0 ≤ r.1.last_pref ∧ r.1.last_pref ≤ 1 := by
  rcases hdr with ⟨num, diff⟩
  cases num with
  | none => simp [process_block] at hok
  | some n =>
    cases diff with
    | none => simp [process_block] at hok
    | some dv =>
      cases zone with
      | none =>
        simp only [process_block] at hok
        injection hok with h
        subst h
        exact ⟨h0, h1⟩
      | some z =>
        simp only [process_block] at hok
        split_ifs at hok with hth
        · injection hok with h
          subst h
          exact prefCand_mem st dv (exchangeRateOf z) (kQuaiDiscountOf z) h0 h1
        · injection hok with h
          subst h
          exact ⟨h0, h1⟩

theorem step_last_mem (c : CState) (e : Ev)
    (h0 : 0 ≤ c.state.last_pref) (h1 : c.state.last_pref ≤ 1) :
    0 ≤ (step c e).1.state.last_pref ∧ (step c e).1.state.last_pref ≤ 1 := by
  rcases c with ⟨ph, b, st⟩
  cases ph <;> cases e <;>
    first
    | exact ⟨h0, h1⟩
    | · rename_i m zone ok
        cases m with
        | malformed => exact ⟨h0, h1⟩
        | noHeader => exact ⟨h0, h1⟩
        | header hh =>
          cases hpb : process_block hh zone ok st with
          | ok r =>
            simpa only [step, hpb] using process_block_last_mem hh zone ok st r h0 h1 hpb
          | error _ =>
            simp only [step, hpb, backoffStep]
            exact ⟨h0, h1⟩

theorem foldl_last_mem : ∀ (l : List Ev) (c : CState),
    0 ≤ c.state.last_pref → c.state.last_pref ≤ 1 →
    0 ≤ (l.foldl (fun c e => (step c e).1) c).state.last_pref ∧
      (l.foldl (fun c e => (step c e).1) c).state.last_pref ≤ 1 := by
  intro l
  induction l with
  | nil => intro c h0 h1; exact ⟨h0, h1⟩
  | cons e l ih =>
    intro c h0 h1
    rw [List.foldl_cons]
    obtain ⟨g0, g1⟩ := step_last_mem c e h0 h1
    exact ih _ g0 g1

theorem run_last_mem (evs : List Ev) :
    0 ≤ (run evs).state.last_pref ∧ (run evs).state.last_pref ≤ 1 := by
  rw [run]
  exact foldl_last_mem evs initState (by norm_num [initState, initPState])
    (by norm_num [initState, initPState])

/-! ## Controller loop lemmas -/

theorem step_connectFail (c : CState) (h : c.phase = .connecting) :
    step c .connectFail = backoffStep c := by
  rcases c with ⟨ph, b, st⟩
  change ph = Phase.connecting at h
  subst h
  rfl

theorem step_ackTimeout (c : CState) (h : c.phase = .connecting) :
    step c .ackTimeout = ({ c with phase := .stopped }, ⟨none, false⟩) := by
  rcases c with ⟨ph, b, st⟩
  change ph = Phase.connecting at h
  subst h
  rfl

theorem step_ackOk (c : CState) (h : c.phase = .connecting) :
    step c .ackOk = ({ c with phase := .streaming, backoff := INITIAL_BACKOFF }, ⟨none, false⟩) := by
  rcases c with ⟨ph, b, st⟩
  change ph = Phase.connecting at h
  subst h
  rfl

theorem step_msg_noHeader (c : CState) (z : Option Zone) (ok : Bool)
    (h : c.phase = .streaming) :
    step c (.msg .noHeader z ok) = (c, ⟨none, false⟩) := by
  rcases c with ⟨ph, b, st⟩
  change ph = Phase.streaming at h
  subst h
  rfl

theorem step_msg_malformed (c : CState) (z : Option Zone) (ok : Bool)
    (h : c.phase = .streaming) :
    step c (.msg .malformed z ok) = backoffStep c := by
  rcases c with ⟨ph, b, st⟩
  change ph = Phase.streaming at h
  subst h
  rfl

theorem step_streamErr (c : CState) (h : c.phase = .streaming) :
    step c .streamErr = backoffStep c := by
  rcases c with ⟨ph, b, st⟩
  change ph = Phase.streaming at h
  subst h
  rfl

theorem step_msg_header_ok (c : CState) (hh : Hdr) (z : Option Zone) (ok : Bool)
    (r : PState × Bool) (h : c.phase = .streaming)
    (hpb : process_block hh z ok c.state = .ok r) :
    step c (.msg (.header hh) z ok) = ({ c with state := r.1 }, ⟨none, r.2⟩) := by
  rcases c with ⟨ph, b, st⟩
  change ph = Phase.streaming at h
  subst h
  change process_block hh z ok st = .ok r at hpb
  obtain ⟨st2, called⟩ := r
  simp only [step, hpb]

theorem step_msg_header_err (c : CState) (hh : Hdr) (z : Option Zone) (ok : Bool)
    (er : PErr) (h : c.phase = .streaming)
    (hpb : process_block hh z ok c.state = .error er) :
    step c (.msg (.header hh) z ok) = backoffStep c := by
  rcases c with ⟨ph, b, st⟩
  change ph = Phase.streaming at h
  subst h
  change process_block hh z ok st = .error er at hpb
  simp only [step, hpb]

theorem process_block_error_of_missing (hh : Hdr) (z : Option Zone) (ok : Bool)
    (st : PState) (h : hh.number = none ∨ hh.minerDifficulty = none) :
    process_block hh z ok st = .error .fieldError := by
  rcases hh with ⟨num, diff⟩
  rcases h with h | h
  · change num = none at h
    subst h
    rfl
  · change diff = none at h
    subst h
    cases num <;> rfl

theorem consecFail_spec (n : ℕ) :
    (consecFail n).phase = .connecting ∧
      (consecFail n).backoff = min (2 ^ n) MAX_BACKOFF ∧
      (consecFail n).state = initPState := by
  induction n with
  | zero => exact ⟨rfl, by decide, rfl⟩
  | succ n ih =>
    obtain ⟨h1, h2, h3⟩ := ih
    have hs : consecFail (n + 1) = (backoffStep (consecFail n)).1 := by
      show (step (consecFail n) .connectFail).1 = _
      rw [step_connectFail (consecFail n) h1]
    refine ⟨by rw [hs]; rfl, ?_, by rw [hs]; exact h3⟩
    rw [hs]
    show min ((consecFail n).backoff * 2) MAX_BACKOFF = min (2 ^ (n + 1)) MAX_BACKOFF
    rw [h2]
    have hp : 2 ^ (n + 1) = 2 ^ n * 2 := pow_succ 2 n
    simp only [MAX_BACKOFF]
    omega

theorem consecFail_sleeps (n : ℕ) :
    (step (consecFail n) .connectFail).2.slept = some (min (2 ^ n) MAX_BACKOFF) := by
  obtain ⟨h1, h2, _⟩ := consecFail_spec n
  rw [step_connectFail (consecFail n) h1]
  show some (consecFail n).backoff = _
  rw [h2]

/-! ## The first processed block -/

theorem stepCycle_init (c : Cycle) :
    stepCycle initPState c = (⟨some ((c.eff : ℚ)), 1 / 2⟩, false) := by
  have hband : inBand initPState c = true := by
    simp only [inBand, initPState, emaNext]
    rw [Bool.not_eq_true', Bool.or_eq_false_iff, decide_eq_false_iff_not,
      decide_eq_false_iff_not]
    have he : (0 : ℚ) ≤ (c.eff : ℚ) := Nat.cast_nonneg _
    constructor
    · rw [DELTA]
      intro hlt
      linarith
    · rw [DELTA]
      intro hlt
      linarith
  rw [stepCycle_of_inBand initPState c hband]
  rfl

/-! ## Claims -/

/-- **C1** (corrected).  Publish gating per cycle: if the candidate moves
from `last_pref` by at most the `1e-4` threshold, no
`miner_setMinerPreference` call is issued and `last_pref` is unchanged; if
it moves by more, exactly one call is issued and `last_pref` becomes the
candidate — but, contrary to the claim, *unconditionally*: the cycle `c`
carries an arbitrary call verdict `c.rpcOk` (the source's `rpc_call`
swallows failures and returns `None`, and line 114 assigns
`state["last_pref"] = pref` without inspecting the result), so a failed
publish does not leave `last_pref` unchanged. -/
theorem c1_publish_gating (st : PState) (c : Cycle) :
    (|prefCand st c.minerDifficulty c.exchangeRate c.kQuaiDiscount - st.last_pref| ≤
        PREF_THRESHOLD →
      stepCycle st c = (⟨some (emaNext st.rate_ema c.eff), st.last_pref⟩, false)) ∧
    (PREF_THRESHOLD <
        |prefCand st c.minerDifficulty c.exchangeRate c.kQuaiDiscount - st.last_pref| →
      stepCycle st c =
        (⟨some (emaNext st.rate_ema c.eff),
          prefCand st c.minerDifficulty c.exchangeRate c.kQuaiDiscount⟩, true)) := by
  constructor
  · intro h
    rw [stepCycle_eq, if_neg (not_lt.mpr h)]
  · intro h
    rw [stepCycle_eq, if_pos h]

/-- **C2** (corrected, amended form).  When the bounded wait for the
subscription acknowledgment times out, the controller does *not* go to
backoff: the `except asyncio.TimeoutError` handler at line 140 executes
`return`, terminating `run_controller` — no sleep, no reconnect. -/
theorem c2_ack_timeout_terminates (c : CState) (h : c.phase = .connecting) :
    step c .ackTimeout = ({ c with phase := .stopped }, ⟨none, false⟩) :=
  step_ackTimeout c h

/-- **C3** (corrected, amended form).  While streaming: a parsed message
that lacks the `woBody`/`woHeader` keys is silently ignored and the loop
continues on the same connection; but an unparsable message, or a
recognised header one of whose fields is missing/unparsable, raises out of
the `async for`, is caught by the outer handler, and triggers a
backoff-and-reconnect — contradicting the claim that such messages never
cause a reconnect. -/
theorem c3_malformed_messages (c : CState) (z : Option Zone) (ok : Bool) (hh : Hdr)
    (h : c.phase = .streaming) :
    step c (.msg .noHeader z ok) = (c, ⟨none, false⟩) ∧
    step c (.msg .malformed z ok) = backoffStep c ∧
    (hh.number = none ∨ hh.minerDifficulty = none →
      step c (.msg (.header hh) z ok) = backoffStep c) :=
  ⟨step_msg_noHeader c z ok h, step_msg_malformed c z ok h,
    fun hmiss =>
      step_msg_header_err c hh z ok .fieldError h
        (process_block_error_of_missing hh z ok c.state hmiss)⟩

/-- **C4** (confirmed).  For every cycle over valid (natural-number) inputs
the candidate preference lies in `[0,1]` whenever the previous published
value does, and along every event trace of the controller the published
`last_pref` stays in `[0,1]`. -/
theorem c4_pref_unit_interval :
    (∀ (st : PState) (d b k : ℕ), 0 ≤ st.last_pref → st.last_pref ≤ 1 →
      0 ≤ prefCand st d b k ∧ prefCand st d b k ≤ 1) ∧
    (∀ evs : List Ev, 0 ≤ (run evs).state.last_pref ∧ (run evs).state.last_pref ≤ 1) :=
  ⟨prefCand_mem, run_last_mem⟩

/-- **C5** (confirmed).  The smoothing filter follows exactly the claimed
rule with `α = ALPHA_RATE_EMA = 0.001`: the first processed sample
initialises the EMA to the sample itself, and every later sample `s` turns
`ema` into `ema + α·(s − ema)`. -/
theorem c5_ema_rule :
    ALPHA_RATE_EMA = 1 / 1000 ∧
    (∀ (st : PState) (c : Cycle), st.rate_ema = none →
      (stepCycle st c).1.rate_ema = some ((c.eff : ℚ))) ∧
    (∀ (st : PState) (c : Cycle) (m : ℚ), st.rate_ema = some m →
      (stepCycle st c).1.rate_ema = some (m + ALPHA_RATE_EMA * ((c.eff : ℚ) - m))) := by
  refine ⟨rfl, ?_, ?_⟩
  · intro st c h
    rw [stepCycle_rate_ema, h]
    rfl
  · intro st c m h
    rw [stepCycle_rate_ema, h]
    rfl

/-- **C6** (confirmed).  When the raw rate falls outside the dead-band but
the total reward is zero, the guarded ratio is never taken: the preference
resolves to the unchanged previous value, and (the delta being zero) no
update call is issued. -/
theorem c6_zero_total_neutral (st : PState) (c : Cycle)
    (hout : (c.eff : ℚ) < emaNext st.rate_ema c.eff * (1 - DELTA) ∨
      emaNext st.rate_ema c.eff * (1 + DELTA) < (c.eff : ℚ))
    (htot : direct_quai_wei c.minerDifficulty c.exchangeRate +
      qi_to_quai_wei c.minerDifficulty c.eff = 0) :
    prefCand st c.minerDifficulty c.exchangeRate c.kQuaiDiscount = st.last_pref ∧
    stepCycle st c = (⟨some (emaNext st.rate_ema c.eff), st.last_pref⟩, false) := by
  simp only [Cycle.eff] at hout htot
  have hpc : prefCand st c.minerDifficulty c.exchangeRate c.kQuaiDiscount = st.last_pref := by
    simp only [prefCand]
    rw [if_pos hout, htot, if_neg (lt_irrefl 0)]
  refine ⟨hpc, ?_⟩
  rw [stepCycle_eq, hpc, if_neg]
  simp [PREF_THRESHOLD]

/-- **C7** (confirmed).  The reconnect backoff starts at
`INITIAL_BACKOFF = 1` s; after `n` consecutive connection failures the
stored delay is `min (2ⁿ) 60` and the `(n+1)`-st failure sleeps exactly
that long (each failure sleeps the current delay and then doubles it, capped
at `MAX_BACKOFF = 60` s); a successful subscription acknowledgment resets
the delay to `INITIAL_BACKOFF`; a streaming failure doubles with the same
cap. -/
theorem c7_backoff_sequence :
    INITIAL_BACKOFF = 1 ∧ MAX_BACKOFF = 60 ∧
    initState.backoff = INITIAL_BACKOFF ∧
    (∀ n : ℕ, (consecFail n).backoff = min (2 ^ n) MAX_BACKOFF) ∧
    (∀ n : ℕ, (step (consecFail n) .connectFail).2.slept = some (min (2 ^ n) MAX_BACKOFF)) ∧
    (∀ c : CState, c.phase = .connecting → (step c .ackOk).1.backoff = INITIAL_BACKOFF) ∧
    (∀ c : CState, c.phase = .streaming →
      (step c .streamErr).1.backoff = min (c.backoff * 2) MAX_BACKOFF ∧
      (step c .streamErr).2.slept = some c.backoff) := by
  refine ⟨rfl, rfl, rfl, fun n => (consecFail_spec n).2.1, consecFail_sleeps, ?_, ?_⟩
  · intro c h
    rw [step_ackOk c h]
  · intro c h
    rw [step_streamErr c h]
    exact ⟨rfl, rfl⟩

/-- **C8** (confirmed).  Over any run of consecutive complete cycles in
which the raw effective rate stays inside the dead-band of that cycle's
updated EMA, the published preference never changes and no update call is
issued in any of the cycles. -/
theorem c8_deadband_stability (st : PState) (cs : List Cycle)
    (h : bandRun st cs = true) :
    (processTrace st cs).1.last_pref = st.last_pref ∧
    (processTrace st cs).2 = List.replicate cs.length false :=
  processTrace_of_bandRun cs st h

/-- **C9** (corrected, amended form).  The reward *conversions*
(lines 88–89) are integer fixed-point, but the Qi reward itself is computed
in binary64 floating point and truncated, so it only approximates the exact
integer `d·10¹⁸/(8·10⁹) = 125000000·d`, within relative error `5·2⁻⁵³`
plus the truncated unit; the claimed exact equality fails (see the
counterexample at `d = 36028802`). -/
theorem c9_qi_wei_float (d : ℕ) :
    |(qi_wei d : ℚ) - 125000000 * d| ≤ 125000000 * d * (5 * uRound) + 1 ∧
    ((d : ℤ) * 10 ^ 18) / (8 * 10 ^ 9) = 125000000 * d := by
  refine ⟨qi_wei_err d, ?_⟩
  have h : (d : ℤ) * 10 ^ 18 = (8 * 10 ^ 9) * (125000000 * d) := by ring
  rw [h, Int.mul_ediv_cancel_left _ (by norm_num)]

/-- **C10** (confirmed).  On the first processed block of a process
lifetime (`rate_ema = None`, `last_pref = 0.5`), the EMA is initialised to
the block's effective rate, which therefore lies inside the dead-band, so
the preference stays at `0.5` and no update call is issued — whatever the
header says. -/
theorem c10_first_block (c : Cycle) :
    stepCycle initPState c = (⟨some ((c.eff : ℚ)), 1 / 2⟩, false) :=
  stepCycle_init c

/-! ## Counterexamples and witnesses (concrete evaluations) -/

section ClaimEval

attribute [local semireducible] Rat.mul Rat.inv Rat.add Rat.sub

/-- **C1**, counterexample to the claim as stated: a cycle whose publish
call *fails* (`rpcOk = false`) and whose candidate (`1/3`) exceeds the
threshold: the call is issued and `last_pref` still becomes the candidate,
leaving `1/2` behind — a failed publish does **not** leave `lastPublished`
unchanged. -/
theorem c1_counterexample :
    (⟨0, 1, 10 ^ 18, 10 ^ 18, false⟩ : Cycle).rpcOk = false ∧
    (stepCycle ⟨some 1, 1 / 2⟩ ⟨0, 1, 10 ^ 18, 10 ^ 18, false⟩).2 = true ∧
    (stepCycle ⟨some 1, 1 / 2⟩ ⟨0, 1, 10 ^ 18, 10 ^ 18, false⟩).1.last_pref ≠ 1 / 2 := by
  decide

theorem c1_witness :
    stepCycle ⟨none, 1 / 2⟩ ⟨0, 1, 100, 0, true⟩ = (⟨some 100, 1 / 2⟩, false) ∧
    (stepCycle ⟨some 1, 1 / 2⟩ ⟨0, 1, 10 ^ 18, 10 ^ 18, true⟩).2 = true := by
  constructor
  · have h := (c1_publish_gating ⟨none, 1 / 2⟩ ⟨0, 1, 100, 0, true⟩).1 (by decide)
    rw [h]
    decide
  · have h := (c1_publish_gating ⟨some 1, 1 / 2⟩ ⟨0, 1, 10 ^ 18, 10 ^ 18, true⟩).2 (by decide)
    rw [h]

/-- **C2**, counterexample to the claim as stated: from the initial
(connecting) state an acknowledgment timeout stops the loop — no backoff
sleep is performed and the successor phase is `stopped`, not a reconnect. -/
theorem c2_counterexample :
    (step initState .ackTimeout).1.phase = Phase.stopped ∧
    (step initState .ackTimeout).2.slept = none ∧
    Phase.stopped ≠ Phase.connecting := by
  decide

theorem c2_witness :
    step initState .ackTimeout = ({ initState with phase := .stopped }, ⟨none, false⟩) :=
  c2_ack_timeout_terminates initState rfl

/-- **C3**, counterexample to the claim as stated: a malformed (unparsable)
message received while streaming with backoff `1` makes the loop sleep
(`slept = some 1`), double the delay to `2` and go reconnect — it does not
continue on the same connection. -/
theorem c3_counterexample :
    (step ⟨.streaming, 1, ⟨none, 1 / 2⟩⟩ (.msg .malformed none false)).2.slept = some 1 ∧
    (step ⟨.streaming, 1, ⟨none, 1 / 2⟩⟩ (.msg .malformed none false)).1.phase =
      Phase.connecting ∧
    (step ⟨.streaming, 1, ⟨none, 1 / 2⟩⟩ (.msg .malformed none false)).1.backoff = 2 := by
  decide

theorem c3_witness :
    step ⟨.streaming, 3, ⟨none, 1 / 2⟩⟩ (.msg .noHeader none true) =
      (⟨.streaming, 3, ⟨none, 1 / 2⟩⟩, ⟨none, false⟩) ∧
    step ⟨.streaming, 3, ⟨none, 1 / 2⟩⟩ (.msg (.header ⟨none, some 5⟩) none true) =
      backoffStep ⟨.streaming, 3, ⟨none, 1 / 2⟩⟩ :=
  ⟨(c3_malformed_messages ⟨.streaming, 3, ⟨none, 1 / 2⟩⟩ none true ⟨none, some 5⟩ rfl).1,
   (c3_malformed_messages ⟨.streaming, 3, ⟨none, 1 / 2⟩⟩ none true ⟨none, some 5⟩ rfl).2.2
     (Or.inl rfl)⟩

theorem c4_witness :
    (0 ≤ prefCand ⟨none, 1 / 2⟩ 1 2 3 ∧ prefCand ⟨none, 1 / 2⟩ 1 2 3 ≤ 1) ∧
    (0 ≤ (run [.ackOk]).state.last_pref ∧ (run [.ackOk]).state.last_pref ≤ 1) :=
  ⟨c4_pref_unit_interval.1 ⟨none, 1 / 2⟩ 1 2 3 (by norm_num) (by norm_num),
   c4_pref_unit_interval.2 [.ackOk]⟩

theorem c5_witness :
    (stepCycle ⟨none, 1 / 2⟩ ⟨1, 2, 3, 4, true⟩).1.rate_ema = some (((3 + 4 : ℕ) : ℚ)) ∧
    (stepCycle ⟨some 2, 1 / 2⟩ ⟨1, 2, 3, 4, true⟩).1.rate_ema =
      some (2 + ALPHA_RATE_EMA * (((3 + 4 : ℕ) : ℚ) - 2)) :=
  ⟨c5_ema_rule.2.1 ⟨none, 1 / 2⟩ ⟨1, 2, 3, 4, true⟩ rfl,
   c5_ema_rule.2.2 ⟨some 2, 1 / 2⟩ ⟨1, 2, 3, 4, true⟩ 2 rfl⟩

theorem c6_witness :
    prefCand ⟨some 1, 1 / 2⟩ 0 100 0 = (1 / 2 : ℚ) ∧
    stepCycle ⟨some 1, 1 / 2⟩ ⟨0, 0, 100, 0, true⟩ =
      (⟨some (emaNext (some 1) 100), 1 / 2⟩, false) :=
  c6_zero_total_neutral ⟨some 1, 1 / 2⟩ ⟨0, 0, 100, 0, true⟩ (Or.inr (by decide)) (by decide)

theorem c7_witness :
    (step initState .ackOk).1.backoff = INITIAL_BACKOFF ∧
    (step ⟨.streaming, 7, initPState⟩ .streamErr).1.backoff = min (7 * 2) MAX_BACKOFF ∧
    (step (consecFail 8) .connectFail).2.slept = some (min (2 ^ 8) MAX_BACKOFF) :=
  ⟨c7_backoff_sequence.2.2.2.2.2.1 initState rfl,
   (c7_backoff_sequence.2.2.2.2.2.2 ⟨.streaming, 7, initPState⟩ rfl).1,
   c7_backoff_sequence.2.2.2.2.1 8⟩

theorem c8_witness :
    bandRun ⟨some 100, 3 / 10⟩ [⟨1, 5, 100, 0, true⟩, ⟨2, 5, 100, 0, false⟩] = true ∧
    (processTrace ⟨some 100, 3 / 10⟩
      [⟨1, 5, 100, 0, true⟩, ⟨2, 5, 100, 0, false⟩]).1.last_pref = 3 / 10 ∧
    (processTrace ⟨some 100, 3 / 10⟩
      [⟨1, 5, 100, 0, true⟩, ⟨2, 5, 100, 0, false⟩]).2 = List.replicate 2 false := by
  have hb : bandRun ⟨some 100, 3 / 10⟩
      [⟨1, 5, 100, 0, true⟩, ⟨2, 5, 100, 0, false⟩] = true := by decide
  have h := c8_deadband_stability ⟨some 100, 3 / 10⟩
    [⟨1, 5, 100, 0, true⟩, ⟨2, 5, 100, 0, false⟩] hb
  exact ⟨hb, h.1, h.2⟩

/-- **C9**, counterexample to the claim as stated: at difficulty
`d = 36028802` the float-computed Qi reward is `4503600250000001` wei, one
more than the exact integer value `36028802·10¹⁸/(8·10⁹) =
4503600250000000`. -/
theorem c9_counterexample :
    qi_wei 36028802 = 4503600250000001 ∧
    ((36028802 : ℤ) * 10 ^ 18) / (8 * 10 ^ 9) = 4503600250000000 ∧
    qi_wei 36028802 ≠ ((36028802 : ℤ) * 10 ^ 18) / (8 * 10 ^ 9) := by
  decide

end ClaimEval

end UpdatePref
